import Mathlib

/-!
Verification of `tools/generate_dfg_texture.py`: a generator for a
pre-integrated DFG lookup texture (split-sum approximation over the GGX
microfacet distribution with height-correlated Smith visibility).

The integer bit-scrambling of the Hammersley sequence is embedded on `Nat`
exactly as Python evaluates it (arbitrary precision, the first shift step
unmasked).  All floating-point arithmetic of the source is embedded as exact
real arithmetic.
-/

/-! ## Bit-reversal part of the Hammersley sequence generator -/

/-- The bit-scrambling steps of `hammersley` from the source, on
arbitrary-precision naturals exactly as Python evaluates them: the first
shift-and-or step is NOT masked to 32 bits, the following steps use the
32-bit constant masks of the source. -/
def hammersleyBits (i : Nat) : Nat :=
  let b1 := (i <<< 16) ||| (i >>> 16)
  let b2 := ((b1 &&& 0x55555555) <<< 1) ||| ((b1 &&& 0xAAAAAAAA) >>> 1)
  let b3 := ((b2 &&& 0x33333333) <<< 2) ||| ((b2 &&& 0xCCCCCCCC) >>> 2)
  let b4 := ((b3 &&& 0x0F0F0F0F) <<< 4) ||| ((b3 &&& 0xF0F0F0F0) >>> 4)
  let b5 := ((b4 &&& 0x00FF00FF) <<< 8) ||| ((b4 &&& 0xFF00FF00) >>> 8)
  b5

/-- The same pipeline under exact 32-bit unsigned semantics: every step is
masked to 32 bits, as a 32-bit machine register would hold it. -/
def hammersleyBits32 (i : Nat) : Nat :=
  let b1 := ((i <<< 16) ||| (i >>> 16)) &&& 0xFFFFFFFF
  let b2 := (((b1 &&& 0x55555555) <<< 1) ||| ((b1 &&& 0xAAAAAAAA) >>> 1)) &&& 0xFFFFFFFF
  let b3 := (((b2 &&& 0x33333333) <<< 2) ||| ((b2 &&& 0xCCCCCCCC) >>> 2)) &&& 0xFFFFFFFF
  let b4 := (((b3 &&& 0x0F0F0F0F) <<< 4) ||| ((b3 &&& 0xF0F0F0F0) >>> 4)) &&& 0xFFFFFFFF
  let b5 := (((b4 &&& 0x00FF00FF) <<< 8) ||| ((b4 &&& 0xFF00FF00) >>> 8)) &&& 0xFFFFFFFF
  b5

/-- Modelled from the spec: exact bit reversal of the low `k` bits of `x`
(the least significant of the `k` input bits becomes the most significant
output bit). -/
def reverseLowBits : Nat → Nat → Nat
  | 0, _ => 0
  | k+1, x => (x % 2) * 2^k + reverseLowBits k (x / 2)

/-- Modelled from the spec: the bit reversal of `i` treated as a 32-bit
unsigned integer. -/
def rev32 (i : Nat) : Nat := reverseLowBits 32 i

theorem mask_bit_55 (j : ℕ) : Nat.testBit 0x55555555 j = decide (j % 2 = 0 ∧ j < 32) := by
  rcases Nat.lt_or_ge j 32 with hj | hj
  · interval_cases j <;> decide
  · rw [Nat.testBit_lt_two_pow (by calc (0x55555555:ℕ) < 2^32 := by norm_num
        _ ≤ 2^j := Nat.pow_le_pow_right (by norm_num) hj)]
    simp; omega

theorem mask_bit_AA (j : ℕ) : Nat.testBit 0xAAAAAAAA j = decide (j % 2 = 1 ∧ j < 32) := by
  rcases Nat.lt_or_ge j 32 with hj | hj
  · interval_cases j <;> decide
  · rw [Nat.testBit_lt_two_pow (by calc (0xAAAAAAAA:ℕ) < 2^32 := by norm_num
        _ ≤ 2^j := Nat.pow_le_pow_right (by norm_num) hj)]
    simp; omega

theorem mask_bit_33 (j : ℕ) : Nat.testBit 0x33333333 j = decide (j % 4 < 2 ∧ j < 32) := by
  rcases Nat.lt_or_ge j 32 with hj | hj
  · interval_cases j <;> decide
  · rw [Nat.testBit_lt_two_pow (by calc (0x33333333:ℕ) < 2^32 := by norm_num
        _ ≤ 2^j := Nat.pow_le_pow_right (by norm_num) hj)]
    simp; omega

theorem mask_bit_CC (j : ℕ) : Nat.testBit 0xCCCCCCCC j = decide (2 ≤ j % 4 ∧ j < 32) := by
  rcases Nat.lt_or_ge j 32 with hj | hj
  · interval_cases j <;> decide
  · rw [Nat.testBit_lt_two_pow (by calc (0xCCCCCCCC:ℕ) < 2^32 := by norm_num
        _ ≤ 2^j := Nat.pow_le_pow_right (by norm_num) hj)]
    simp; omega

theorem mask_bit_0F (j : ℕ) : Nat.testBit 0x0F0F0F0F j = decide (j % 8 < 4 ∧ j < 32) := by
  rcases Nat.lt_or_ge j 32 with hj | hj
  · interval_cases j <;> decide
  · rw [Nat.testBit_lt_two_pow (by calc (0x0F0F0F0F:ℕ) < 2^32 := by norm_num
        _ ≤ 2^j := Nat.pow_le_pow_right (by norm_num) hj)]
    simp; omega

theorem mask_bit_F0 (j : ℕ) : Nat.testBit 0xF0F0F0F0 j = decide (4 ≤ j % 8 ∧ j < 32) := by
  rcases Nat.lt_or_ge j 32 with hj | hj
  · interval_cases j <;> decide
  · rw [Nat.testBit_lt_two_pow (by calc (0xF0F0F0F0:ℕ) < 2^32 := by norm_num
        _ ≤ 2^j := Nat.pow_le_pow_right (by norm_num) hj)]
    simp; omega

theorem mask_bit_00FF (j : ℕ) : Nat.testBit 0x00FF00FF j = decide (j % 16 < 8 ∧ j < 32) := by
  rcases Nat.lt_or_ge j 32 with hj | hj
  · interval_cases j <;> decide
  · rw [Nat.testBit_lt_two_pow (by calc (0x00FF00FF:ℕ) < 2^32 := by norm_num
        _ ≤ 2^j := Nat.pow_le_pow_right (by norm_num) hj)]
    simp; omega

theorem mask_bit_FF00 (j : ℕ) : Nat.testBit 0xFF00FF00 j = decide (8 ≤ j % 16 ∧ j < 32) := by
  rcases Nat.lt_or_ge j 32 with hj | hj
  · interval_cases j <;> decide
  · rw [Nat.testBit_lt_two_pow (by calc (0xFF00FF00:ℕ) < 2^32 := by norm_num
        _ ≤ 2^j := Nat.pow_le_pow_right (by norm_num) hj)]
    simp; omega

theorem mask_bit_full (j : ℕ) : Nat.testBit 0xFFFFFFFF j = decide (j < 32) := by
  have : (0xFFFFFFFF : ℕ) = 2^32 - 1 := by norm_num
  rw [this, Nat.testBit_two_pow_sub_one]

theorem testBit_high_of_lt {i : ℕ} (h : i < 2^32) :
    ∀ c, 32 ≤ c → i.testBit c = false := fun c hc =>
  Nat.testBit_lt_two_pow (lt_of_lt_of_le h (Nat.pow_le_pow_right (by norm_num) hc))

set_option maxHeartbeats 40000000 in
theorem hammersleyBits_testBit (i : ℕ) (h : i < 2^32) (j : ℕ) (hj : j < 32) :
    (hammersleyBits i).testBit j = i.testBit (31 - j) := by
  have hb := testBit_high_of_lt h
  interval_cases j <;>
    simp [hammersleyBits, mask_bit_55, mask_bit_AA, mask_bit_33, mask_bit_CC,
      mask_bit_0F, mask_bit_F0, mask_bit_00FF, mask_bit_FF00, hb]

set_option maxHeartbeats 40000000 in
theorem hammersleyBits32_testBit (i : ℕ) (h : i < 2^32) (j : ℕ) (hj : j < 32) :
    (hammersleyBits32 i).testBit j = i.testBit (31 - j) := by
  have hb := testBit_high_of_lt h
  interval_cases j <;>
    simp [hammersleyBits32, mask_bit_55, mask_bit_AA, mask_bit_33, mask_bit_CC,
      mask_bit_0F, mask_bit_F0, mask_bit_00FF, mask_bit_FF00, mask_bit_full, hb]

theorem hammersleyBits_lt (i : ℕ) : hammersleyBits i < 2^32 := by
  have h1 : ∀ x : ℕ, (x &&& 0x00FF00FF) <<< 8 < 2^32 := by
    intro x
    calc (x &&& 0x00FF00FF) <<< 8 = (x &&& 0x00FF00FF) * 2^8 := by rw [Nat.shiftLeft_eq]
    _ ≤ 0x00FF00FF * 2^8 := Nat.mul_le_mul_right _ (@Nat.and_le_right x 0x00FF00FF)
    _ < 2^32 := by norm_num
  have h2 : ∀ x : ℕ, (x &&& 0xFF00FF00) >>> 8 < 2^32 := by
    intro x
    have hd : (x &&& 0xFF00FF00) >>> 8 ≤ x &&& 0xFF00FF00 := by
      rw [Nat.shiftRight_eq_div_pow]
      exact Nat.div_le_self _ _
    exact lt_of_le_of_lt (le_trans hd (@Nat.and_le_right x 0xFF00FF00)) (by norm_num)
  simp only [hammersleyBits]
  exact Nat.or_lt_two_pow (h1 _) (h2 _)

theorem hammersleyBits32_lt (i : ℕ) : hammersleyBits32 i < 2^32 := by
  show (_ &&& 0xFFFFFFFF) < 2^32
  exact Nat.and_lt_two_pow _ (by norm_num)

theorem reverseLowBits_lt (k x : ℕ) : reverseLowBits k x < 2^k := by
  induction k generalizing x with
  | zero => simp [reverseLowBits]
  | succ k ih =>
    have h1 := ih (x / 2)
    have h2 : x % 2 ≤ 1 := Nat.le_of_lt_succ (Nat.mod_lt _ (by norm_num))
    have h3 : (x % 2) * 2^k ≤ 2^k := by
      calc (x % 2) * 2^k ≤ 1 * 2^k := Nat.mul_le_mul_right _ h2
      _ = 2^k := one_mul _
    calc reverseLowBits (k+1) x = (x % 2) * 2^k + reverseLowBits k (x / 2) := rfl
    _ < 2^k + 2^k := by omega
    _ = 2^(k+1) := by ring

theorem reverseLowBits_testBit (k x j : ℕ) :
    (reverseLowBits k x).testBit j = (decide (j < k) && x.testBit (k - 1 - j)) := by
  induction k generalizing x j with
  | zero => simp [reverseLowBits]
  | succ k ih =>
    have hb : reverseLowBits k (x / 2) < 2^k := reverseLowBits_lt k (x / 2)
    have key : reverseLowBits (k+1) x = 2^k * (x % 2) + reverseLowBits k (x / 2) := by
      simp [reverseLowBits]; ring
    rw [key, Nat.testBit_mul_pow_two_add _ hb]
    rcases Nat.lt_trichotomy j k with hj | hj | hj
    · rw [if_pos hj, ih]
      have he : k - 1 - j + 1 = k + 1 - 1 - j := by omega
      simp only [hj, Nat.lt_succ_of_lt hj, Nat.testBit_div_two, he]
    · subst hj
      rw [if_neg (lt_irrefl _)]
      have he : j + 1 - 1 - j = 0 := by omega
      simp only [Nat.sub_self, Nat.lt_succ_self, he, Nat.testBit_zero]
      simp
    · rw [if_neg (by omega)]
      have h2 : x % 2 < 2^(j - k) := by
        have hm : x % 2 < 2 := Nat.mod_lt _ (by norm_num)
        calc x % 2 < 2 := hm
        _ = 2^1 := (pow_one 2).symm
        _ ≤ 2^(j-k) := Nat.pow_le_pow_right (by norm_num) (by omega)
      rw [Nat.testBit_lt_two_pow h2]
      have hn : ¬ (j < k + 1) := by omega
      simp [hn]

theorem rev32_lt (i : ℕ) : rev32 i < 2^32 := reverseLowBits_lt 32 i

theorem rev32_testBit (i j : ℕ) :
    (rev32 i).testBit j = (decide (j < 32) && i.testBit (31 - j)) := by
  simpa [rev32] using reverseLowBits_testBit 32 i j

/-- On inputs below `2^32`, the unmasked pipeline of the source agrees with
exact 32-bit unsigned semantics. -/
theorem hammersleyBits_eq_hammersleyBits32 (i : ℕ) (h : i < 2^32) :
    hammersleyBits i = hammersleyBits32 i := by
  apply Nat.eq_of_testBit_eq
  intro j
  rcases Nat.lt_or_ge j 32 with hj | hj
  · rw [hammersleyBits_testBit i h j hj, hammersleyBits32_testBit i h j hj]
  · rw [Nat.testBit_lt_two_pow
        (lt_of_lt_of_le (hammersleyBits_lt i) (Nat.pow_le_pow_right (by norm_num) hj)),
      Nat.testBit_lt_two_pow
        (lt_of_lt_of_le (hammersleyBits32_lt i) (Nat.pow_le_pow_right (by norm_num) hj))]

/-- On inputs below `2^32`, the bit-scrambling of the source computes the
exact 32-bit bit reversal. -/
theorem hammersleyBits_eq_rev32 (i : ℕ) (h : i < 2^32) :
    hammersleyBits i = rev32 i := by
  apply Nat.eq_of_testBit_eq
  intro j
  rcases Nat.lt_or_ge j 32 with hj | hj
  · rw [hammersleyBits_testBit i h j hj, rev32_testBit]
    simp [hj]
  · rw [Nat.testBit_lt_two_pow
        (lt_of_lt_of_le (hammersleyBits_lt i) (Nat.pow_le_pow_right (by norm_num) hj)),
      Nat.testBit_lt_two_pow
        (lt_of_lt_of_le (rev32_lt i) (Nat.pow_le_pow_right (by norm_num) hj))]

/-! ## Real-valued embedding of the numerical core

The floating-point arithmetic of the source is embedded as exact real
arithmetic. -/

noncomputable section

/-- `saturate` from the source: clamp to the unit interval. -/
def saturate (value : ℝ) : ℝ := min (max value 0) 1

/-- The constant `tof = 0.5 / 0x80000000` of `hammersley`. -/
def tof : ℝ := 0.5 / 2147483648

/-- `hammersley` from the source: sample index to a 2D low-discrepancy point.
The bit scrambling is `hammersleyBits`. -/
def hammersley (i : ℕ) (number_of_samples : ℕ) : ℝ × ℝ :=
  ((i : ℝ) / (number_of_samples : ℝ), (hammersleyBits i : ℝ) * tof)

/-- `hemisphere_importance_sample_dggx` from the source: map a 2D sample and a
roughness to a GGX-distributed half vector. -/
def hemisphere_importance_sample_dggx (u : ℝ × ℝ) (a : ℝ) : ℝ × ℝ × ℝ :=
  let phi := 2 * Real.pi * u.1
  let cos_theta2 := (1 - u.2) / (1 + (a + 1) * ((a - 1) * u.2))
  let cos_theta := Real.sqrt cos_theta2
  let sin_theta := Real.sqrt (1 - cos_theta2)
  (sin_theta * Real.cos phi, sin_theta * Real.sin phi, cos_theta)

/-- The denominator `ggxv + ggxl` computed by `visibility` in the source. -/
def visibilityDenom (nov nol a : ℝ) : ℝ :=
  let a2 := a * a
  let ggxl := nov * Real.sqrt ((nol - nol * a2) * nol + a2)
  let ggxv := nol * Real.sqrt ((nov - nov * a2) * nov + a2)
  ggxv + ggxl

/-- `visibility` from the source: height-correlated Smith GGX visibility. -/
def visibility (nov nol a : ℝ) : ℝ := 0.5 / visibilityDenom nov nol a

/-- Componentwise dot product of 3D vectors (`numpy.dot` on 3-tuples). -/
def dot3 (v h : ℝ × ℝ × ℝ) : ℝ := v.1 * h.1 + v.2.1 * h.2.1 + v.2.2 * h.2.2

/-- The fixed view vector constructed by `calculate_dfg`. -/
def viewVector (nov : ℝ) : ℝ × ℝ × ℝ := (Real.sqrt (1 - nov * nov), 0, nov)

/-- One iteration of the accumulation loop of `calculate_dfg`, parametric in
the visibility function it invokes. -/
def dfgLoopBody (V : ℝ → ℝ → ℝ → ℝ) (nov a : ℝ) (number_of_samples : ℕ)
    (r : ℝ × ℝ) (i : ℕ) : ℝ × ℝ :=
  let v := viewVector nov
  let u := hammersley i number_of_samples
  let h := hemisphere_importance_sample_dggx u a
  let d := dot3 v h
  let voh := saturate d
  let nol := saturate (2 * d * h.2.2 - v.2.2)
  let noh := saturate h.2.2
  if 0 < nol then
    let vis := V nov nol a * nol * (voh / noh)
    let fc := (1 - voh) ^ (5 : ℕ)
    (r.1 + vis * fc, r.2 + vis)
  else r

/-- `calculate_dfg` from the source, parametric in the visibility function the
loop body invokes (the source always passes `visibility`). -/
def calculate_dfgWith (V : ℝ → ℝ → ℝ → ℝ) (nov a : ℝ) (number_of_samples : ℕ) : ℝ × ℝ :=
  let r := (List.range number_of_samples).foldl (dfgLoopBody V nov a number_of_samples) (0, 0)
  (r.1 * (4 / (number_of_samples : ℝ)), r.2 * (4 / (number_of_samples : ℝ)))

/-- `calculate_dfg` from the source. -/
def calculate_dfg (nov a : ℝ) (number_of_samples : ℕ) : ℝ × ℝ :=
  calculate_dfgWith visibility nov a number_of_samples

/-- Modelled from the spec (claim C1 wording): the contribution of sample `i`
to the reference split-sum, as the pair of channel values. -/
def splitSumSample (nov a : ℝ) (N i : ℕ) : ℝ × ℝ :=
  let v : ℝ × ℝ × ℝ := (Real.sqrt (1 - nov ^ 2), 0, nov)
  let u := hammersley i N
  let h := hemisphere_importance_sample_dggx u a
  let voh := saturate (dot3 v h)
  let nol := saturate (2 * dot3 v h * h.2.2 - v.2.2)
  let noh := saturate h.2.2
  if 0 < nol then
    let vis := visibility nov nol a
    (vis * nol * (voh / noh) * (1 - voh) ^ (5 : ℕ), vis * nol * (voh / noh))
  else (0, 0)

/-- Modelled from the spec (claim C1 wording): the reference split-sum, both
channels scaled by `4/N`. -/
def referenceSplitSum (nov a : ℝ) (N : ℕ) : ℝ × ℝ :=
  (4 / (N : ℝ) * ∑ i ∈ Finset.range N, (splitSumSample nov a N i).1,
   4 / (N : ℝ) * ∑ i ∈ Finset.range N, (splitSumSample nov a N i).2)

end

theorem saturate_nonneg (x : ℝ) : 0 ≤ saturate x :=
  le_min (le_max_right x 0) zero_le_one

theorem saturate_le_one (x : ℝ) : saturate x ≤ 1 :=
  min_le_right _ _

theorem saturate_pos {x : ℝ} (hx : 0 < x) : 0 < saturate x :=
  lt_min (lt_max_iff.mpr (Or.inl hx)) one_pos

/-! ## Pointwise properties of the sampler and the visibility term -/

theorem ggx_denom_pos (u1 a : ℝ) (hu1 : 0 ≤ u1) (hu1l : u1 < 1) (ha : 0 < a) (ha1 : a ≤ 1) :
    0 < 1 + (a + 1) * ((a - 1) * u1) := by
  nlinarith [mul_nonneg (mul_self_nonneg a) hu1]

theorem cos_theta2_nonneg (u1 a : ℝ) (hu1 : 0 ≤ u1) (hu1l : u1 < 1) (ha : 0 < a) (ha1 : a ≤ 1) :
    0 ≤ (1 - u1) / (1 + (a + 1) * ((a - 1) * u1)) :=
  div_nonneg (by linarith) (ggx_denom_pos u1 a hu1 hu1l ha ha1).le

theorem cos_theta2_le_one (u1 a : ℝ) (hu1 : 0 ≤ u1) (hu1l : u1 < 1) (ha : 0 < a) (ha1 : a ≤ 1) :
    (1 - u1) / (1 + (a + 1) * ((a - 1) * u1)) ≤ 1 := by
  rw [div_le_one (ggx_denom_pos u1 a hu1 hu1l ha ha1)]
  nlinarith [mul_nonneg (mul_self_nonneg a) hu1]

/-- Claim C3: for `u0, u1` in `[0,1)` and `a` in `(0,1]`, the direction
returned by `hemisphere_importance_sample_dggx` has squared magnitude exactly
1 over the reals, the denominator `1 + (a+1)((a-1)u1)` is positive, and
`cos_theta2` lies in `[0,1]`. -/
theorem C3_sampler_unit_vector (u0 u1 a : ℝ) (hu0 : 0 ≤ u0) (hu0l : u0 < 1)
    (hu1 : 0 ≤ u1) (hu1l : u1 < 1) (ha : 0 < a) (ha1 : a ≤ 1) :
    (hemisphere_importance_sample_dggx (u0, u1) a).1 ^ 2 +
      (hemisphere_importance_sample_dggx (u0, u1) a).2.1 ^ 2 +
      (hemisphere_importance_sample_dggx (u0, u1) a).2.2 ^ 2 = 1 ∧
    0 < 1 + (a + 1) * ((a - 1) * u1) ∧
    0 ≤ (1 - u1) / (1 + (a + 1) * ((a - 1) * u1)) ∧
    (1 - u1) / (1 + (a + 1) * ((a - 1) * u1)) ≤ 1 := by
  have hd := ggx_denom_pos u1 a hu1 hu1l ha ha1
  have hc0 := cos_theta2_nonneg u1 a hu1 hu1l ha ha1
  have hc1 := cos_theta2_le_one u1 a hu1 hu1l ha ha1
  refine ⟨?_, hd, hc0, hc1⟩
  simp only [hemisphere_importance_sample_dggx]
  have h1 : Real.sqrt ((1 - u1) / (1 + (a + 1) * ((a - 1) * u1))) ^ 2
      = (1 - u1) / (1 + (a + 1) * ((a - 1) * u1)) := Real.sq_sqrt hc0
  have h2 : Real.sqrt (1 - (1 - u1) / (1 + (a + 1) * ((a - 1) * u1))) ^ 2
      = 1 - (1 - u1) / (1 + (a + 1) * ((a - 1) * u1)) := Real.sq_sqrt (by linarith)
  have h3 := Real.sin_sq_add_cos_sq (2 * Real.pi * u0)
  nlinarith [h1, h2, h3]

/-- Witness for C3 at `(u0, u1, a) = (0, 0, 1)`. -/
theorem C3_sampler_unit_vector_witness :
    (0:ℝ) ≤ 0 ∧ (0:ℝ) < 1 ∧
    ((hemisphere_importance_sample_dggx ((0:ℝ), (0:ℝ)) 1).1 ^ 2 +
      (hemisphere_importance_sample_dggx ((0:ℝ), (0:ℝ)) 1).2.1 ^ 2 +
      (hemisphere_importance_sample_dggx ((0:ℝ), (0:ℝ)) 1).2.2 ^ 2 = 1 ∧
    (0:ℝ) < 1 + (1 + 1) * ((1 - 1) * 0) ∧
    (0:ℝ) ≤ (1 - 0) / (1 + (1 + 1) * ((1 - 1) * 0)) ∧
    ((1:ℝ) - 0) / (1 + (1 + 1) * ((1 - 1) * 0)) ≤ 1) :=
  ⟨le_refl 0, zero_lt_one,
    C3_sampler_unit_vector 0 0 1 (le_refl 0) zero_lt_one (le_refl 0) zero_lt_one
      zero_lt_one (le_refl 1)⟩

/-- Claim C4: the visibility term is symmetric in its two angle-cosine
arguments. -/
theorem C4_visibility_symmetric (nov nol a : ℝ) (hnov0 : 0 ≤ nov) (hnov1 : nov ≤ 1)
    (hnol0 : 0 ≤ nol) (hnol1 : nol ≤ 1) (ha : 0 < a) (ha1 : a ≤ 1)
    (hnz : ¬(nov = 0 ∧ nol = 0)) :
    visibility nov nol a = visibility nol nov a := by
  simp only [visibility, visibilityDenom]
  ring_nf

/-- Witness for C4 at `(nov, nol, a) = (1/2, 1/3, 1)`. -/
theorem C4_visibility_symmetric_witness :
    visibility (1/2 : ℝ) (1/3) 1 = visibility (1/3 : ℝ) (1/2) 1 :=
  C4_visibility_symmetric (1/2) (1/3) 1 (by norm_num) (by norm_num) (by norm_num)
    (by norm_num) (by norm_num) (by norm_num) (by norm_num)

/-- The second Hammersley coordinate lies in `[0, 1)` for every index. -/
theorem hammersley_u1_mem (i N : ℕ) :
    0 ≤ (hammersley i N).2 ∧ (hammersley i N).2 < 1 := by
  unfold hammersley tof
  constructor
  · exact mul_nonneg (Nat.cast_nonneg _) (by norm_num)
  · have hcast : (hammersleyBits i : ℝ) < 4294967296 := by
      exact_mod_cast (by norm_num : (2:ℕ)^32 = 4294967296) ▸ hammersleyBits_lt i
    have he : (0.5 : ℝ) / 2147483648 = 1 / 4294967296 := by norm_num
    rw [he, mul_one_div, div_lt_one (by norm_num)]
    exact hcast

/-- Claim C9: for every sample index and well-formed roughness, the half
vector has strictly positive `z` component, hence the saturated `noh` used as
the divisor in the accumulation branch is strictly positive. -/
theorem C9_noh_positive (i N : ℕ) (hiN : i < N) (a : ℝ) (ha : 0 < a) (ha1 : a ≤ 1) :
    0 < (hemisphere_importance_sample_dggx (hammersley i N) a).2.2 ∧
    0 < saturate ((hemisphere_importance_sample_dggx (hammersley i N) a).2.2) := by
  obtain ⟨hu0, hu1⟩ := hammersley_u1_mem i N
  have hd := ggx_denom_pos _ a hu0 hu1 ha ha1
  have hz : 0 < (hemisphere_importance_sample_dggx (hammersley i N) a).2.2 := by
    simp only [hemisphere_importance_sample_dggx]
    exact Real.sqrt_pos.mpr (div_pos (by linarith) hd)
  exact ⟨hz, saturate_pos hz⟩

/-- Witness for C9 at `i = 0`, `N = 1`, `a = 1`. -/
theorem C9_noh_positive_witness :
    0 < 1 ∧ (0:ℝ) < 1 ∧
    (0 < (hemisphere_importance_sample_dggx (hammersley 0 1) 1).2.2 ∧
     0 < saturate ((hemisphere_importance_sample_dggx (hammersley 0 1) 1).2.2)) :=
  ⟨Nat.zero_lt_one, zero_lt_one, C9_noh_positive 0 1 Nat.zero_lt_one 1 zero_lt_one (le_refl 1)⟩

/-! ## The accumulation loop of `calculate_dfg` -/

theorem dfgLoopBody_shift (V : ℝ → ℝ → ℝ → ℝ) (nov a : ℝ) (N : ℕ) (r : ℝ × ℝ) (i : ℕ) :
    dfgLoopBody V nov a N r i
      = (r.1 + (dfgLoopBody V nov a N (0, 0) i).1,
         r.2 + (dfgLoopBody V nov a N (0, 0) i).2) := by
  simp only [dfgLoopBody]
  split_ifs with h
  · simp
  · simp

theorem foldl_dfgLoopBody (V : ℝ → ℝ → ℝ → ℝ) (nov a : ℝ) (N : ℕ) :
    ∀ (M : ℕ) (p : ℝ × ℝ),
      (List.range M).foldl (dfgLoopBody V nov a N) p
        = (p.1 + ∑ i ∈ Finset.range M, (dfgLoopBody V nov a N (0, 0) i).1,
           p.2 + ∑ i ∈ Finset.range M, (dfgLoopBody V nov a N (0, 0) i).2) := by
  intro M
  induction M with
  | zero => intro p; simp
  | succ M ih =>
    intro p
    rw [List.range_succ, List.foldl_append, List.foldl_cons, List.foldl_nil, ih,
      dfgLoopBody_shift, Finset.sum_range_succ, Finset.sum_range_succ]
    simp only [Prod.mk.injEq]
    constructor <;> ring

theorem dfgLoopBody_eq_splitSumSample (nov a : ℝ) (N i : ℕ) :
    dfgLoopBody visibility nov a N (0, 0) i = splitSumSample nov a N i := by
  simp only [dfgLoopBody, splitSumSample, viewVector, pow_two]
  split_ifs with h
  · simp only [Prod.mk.injEq]
    constructor <;> ring
  · rfl

/-- Claim C1: `calculate_dfg` computes exactly the reference split-sum
described by the spec, both channels scaled by `4/N`. -/
theorem C1_calculate_dfg_eq_reference (nov a : ℝ) (N : ℕ)
    (hnov : 0 < nov) (hnov1 : nov ≤ 1) (ha : 0 < a) (ha1 : a ≤ 1) (hN : 1 ≤ N) :
    calculate_dfg nov a N = referenceSplitSum nov a N := by
  unfold calculate_dfg calculate_dfgWith referenceSplitSum
  rw [foldl_dfgLoopBody]
  simp only [dfgLoopBody_eq_splitSumSample, Prod.mk.injEq]
  constructor <;> ring

/-- Witness for C1 at `(nov, a, N) = (1, 1, 1)`. -/
theorem C1_calculate_dfg_eq_reference_witness :
    (0:ℝ) < 1 ∧ 1 ≤ 1 ∧ calculate_dfg 1 1 1 = referenceSplitSum 1 1 1 :=
  ⟨zero_lt_one, le_refl 1,
    C1_calculate_dfg_eq_reference 1 1 1 zero_lt_one (le_refl 1) zero_lt_one (le_refl 1)
      (le_refl 1)⟩

/-- Claim C6: with `nov = nol = 0` the denominator `ggxv + ggxl` computed by
`visibility` is exactly 0 (and `visibility` is `0.5` divided by that
denominator); and `calculate_dfg` invokes the visibility function only at
arguments whose second coordinate satisfies `nol > 0`: any two visibility
functions agreeing on `nol > 0` give identical integrator output. -/
theorem C6_denominator_zero_and_guarded :
    (∀ a : ℝ, visibilityDenom 0 0 a = 0) ∧
    (∀ nov nol a : ℝ, visibility nov nol a = 0.5 / visibilityDenom nov nol a) ∧
    (∀ V W : ℝ → ℝ → ℝ → ℝ, (∀ x y z : ℝ, 0 < y → V x y z = W x y z) →
      ∀ (nov a : ℝ) (N : ℕ), calculate_dfgWith V nov a N = calculate_dfgWith W nov a N) := by
  refine ⟨fun a => by simp [visibilityDenom], fun nov nol a => rfl, ?_⟩
  intro V W hVW nov a N
  unfold calculate_dfgWith
  have hbody : dfgLoopBody V nov a N = dfgLoopBody W nov a N := by
    funext r i
    simp only [dfgLoopBody]
    split_ifs with h
    · rw [hVW _ _ _ h]
    · rfl
  rw [hbody]

/-- Witness for C6: replacing `visibility` with a function that differs only
at `nol ≤ 0` leaves `calculate_dfg` unchanged, here at `(1, 1, 4)`. -/
theorem C6_denominator_zero_and_guarded_witness :
    calculate_dfgWith visibility 1 1 4
      = calculate_dfgWith (fun x y z => if 0 < y then visibility x y z else 37) 1 1 4 :=
  C6_denominator_zero_and_guarded.2.2 visibility
    (fun x y z => if 0 < y then visibility x y z else 37)
    (fun x y z hy => (if_pos hy).symm) 1 1 4

theorem dfgSample_bounds (nov a : ℝ) (hnov : 0 ≤ nov) (N i : ℕ) :
    0 ≤ (dfgLoopBody visibility nov a N (0, 0) i).1 ∧
    (dfgLoopBody visibility nov a N (0, 0) i).1 ≤ (dfgLoopBody visibility nov a N (0, 0) i).2 := by
  simp only [dfgLoopBody]
  split_ifs with h
  · set d := dot3 (viewVector nov) (hemisphere_importance_sample_dggx (hammersley i N) a) with hd
    set hz := (hemisphere_importance_sample_dggx (hammersley i N) a).2.2 with hhz
    set nol := saturate (2 * d * hz - (viewVector nov).2.2) with hnol
    have hnol0 : 0 ≤ nol := saturate_nonneg _
    have hvis : 0 ≤ visibility nov nol a := by
      unfold visibility visibilityDenom
      apply div_nonneg (by norm_num)
      exact add_nonneg (mul_nonneg hnol0 (Real.sqrt_nonneg _))
        (mul_nonneg hnov (Real.sqrt_nonneg _))
    have hw : 0 ≤ visibility nov nol a * nol * (saturate d / saturate hz) :=
      mul_nonneg (mul_nonneg hvis hnol0)
        (div_nonneg (saturate_nonneg _) (saturate_nonneg _))
    have hfc0 : 0 ≤ (1 - saturate d) ^ (5:ℕ) :=
      pow_nonneg (by linarith [saturate_le_one d]) 5
    have hfc1 : (1 - saturate d) ^ (5:ℕ) ≤ 1 :=
      pow_le_one₀ (by linarith [saturate_le_one d]) (by linarith [saturate_nonneg d])
    constructor
    · simpa using mul_nonneg hw hfc0
    · simpa using mul_le_of_le_one_right hw hfc1
  · simp

/-- Claim C8: the two channels of `calculate_dfg` satisfy
`0 ≤ dfg1 ≤ dfg2`. -/
theorem C8_dfg1_le_dfg2 (nov a : ℝ) (N : ℕ)
    (hnov : 0 < nov) (hnov1 : nov ≤ 1) (ha : 0 < a) (ha1 : a ≤ 1) (hN : 1 ≤ N) :
    0 ≤ (calculate_dfg nov a N).1 ∧ (calculate_dfg nov a N).1 ≤ (calculate_dfg nov a N).2 := by
  unfold calculate_dfg calculate_dfgWith
  rw [foldl_dfgLoopBody]
  simp only [zero_add]
  have hs0 : 0 ≤ ∑ i ∈ Finset.range N, (dfgLoopBody visibility nov a N (0, 0) i).1 :=
    Finset.sum_nonneg fun i _ => (dfgSample_bounds nov a hnov.le N i).1
  have hs12 : (∑ i ∈ Finset.range N, (dfgLoopBody visibility nov a N (0, 0) i).1)
      ≤ ∑ i ∈ Finset.range N, (dfgLoopBody visibility nov a N (0, 0) i).2 :=
    Finset.sum_le_sum fun i _ => (dfgSample_bounds nov a hnov.le N i).2
  have hscale : (0:ℝ) ≤ 4 / (N : ℝ) := by positivity
  exact ⟨mul_nonneg hs0 hscale, mul_le_mul_of_nonneg_right hs12 hscale⟩

/-- Witness for C8 at `(nov, a, N) = (1, 1, 2)`. -/
theorem C8_dfg1_le_dfg2_witness :
    (0:ℝ) < 1 ∧ 1 ≤ 2 ∧
    (0 ≤ (calculate_dfg 1 1 2).1 ∧ (calculate_dfg 1 1 2).1 ≤ (calculate_dfg 1 1 2).2) :=
  ⟨zero_lt_one, one_le_two,
    C8_dfg1_le_dfg2 1 1 2 zero_lt_one (le_refl 1) zero_lt_one (le_refl 1) one_le_two⟩

/-! ## Claim C2: the Hammersley point is the exact 32-bit bit reversal -/

/-- Claim C2: for `i < 2^32` and `N ≥ 1`, `hammersley i N` is exactly
`(i/N, rev32 i / 2^32)` with `rev32` the exact 32-bit unsigned bit reversal,
and the unmasked pipeline of the source yields the same value as the pipeline
that masks to 32 bits at every step. -/
theorem C2_hammersley_exact (i N : ℕ) (hi : i < 2^32) (hN : 1 ≤ N) :
    hammersley i N = ((i : ℝ) / (N : ℝ), (rev32 i : ℝ) / 2^32) ∧
    hammersleyBits i = hammersleyBits32 i := by
  refine ⟨?_, hammersleyBits_eq_hammersleyBits32 i hi⟩
  unfold hammersley tof
  rw [hammersleyBits_eq_rev32 i hi]
  simp only [Prod.mk.injEq]
  refine ⟨trivial, ?_⟩
  rw [show (0.5 : ℝ) / 2147483648 = 1 / 4294967296 by norm_num, mul_one_div]
  norm_num

/-- Witness for C2 at `i = 5`, `N = 7`. -/
theorem C2_hammersley_exact_witness :
    5 < 2^32 ∧ 1 ≤ 7 ∧
    (hammersley 5 7 = ((5 : ℝ) / (7 : ℝ), (rev32 5 : ℝ) / 2^32) ∧
     hammersleyBits 5 = hammersleyBits32 5) :=
  ⟨by norm_num, by norm_num, C2_hammersley_exact 5 7 (by norm_num) (by norm_num)⟩

/-! ## Claim C5: the Hammersley second coordinates permute the grid -/

theorem reverseLowBits_involutive (k i : ℕ) (h : i < 2^k) :
    reverseLowBits k (reverseLowBits k i) = i := by
  apply Nat.eq_of_testBit_eq
  intro j
  rw [reverseLowBits_testBit, reverseLowBits_testBit]
  rcases Nat.lt_or_ge j k with hj | hj
  · have h1 : k - 1 - j < k := by omega
    have h2 : k - 1 - (k - 1 - j) = j := by omega
    simp [hj, h1, h2]
  · have h1 : ¬(j < k) := by omega
    rw [Nat.testBit_lt_two_pow (lt_of_lt_of_le h (Nat.pow_le_pow_right (by norm_num) hj))]
    simp [h1]

theorem rev32_eq_shifted (k i : ℕ) (hk : k ≤ 32) (h : i < 2^k) :
    rev32 i = 2^(32-k) * reverseLowBits k i := by
  apply Nat.eq_of_testBit_eq
  intro j
  rw [rev32_testBit, Nat.testBit_mul_pow_two, reverseLowBits_testBit]
  rcases Nat.lt_or_ge j (32-k) with h1 | h1
  · have e1 : ¬(32 - k ≤ j) := by omega
    have e2 : k ≤ 31 - j := by omega
    rw [Nat.testBit_lt_two_pow (lt_of_lt_of_le h (Nat.pow_le_pow_right (by norm_num) e2))]
    simp [e1]
  · rcases Nat.lt_or_ge j 32 with h2 | h2
    · have e2 : j - (32-k) < k := by omega
      have e3 : k - 1 - (j - (32-k)) = 31 - j := by omega
      simp [h1, h2, e2, e3]
    · have e2 : ¬(j - (32-k) < k) := by omega
      have e4 : ¬(j < 32) := by omega
      simp [e2, e4]

theorem map_reverseLowBits_range (k : ℕ) :
    (Multiset.range (2^k)).map (reverseLowBits k) = Multiset.range (2^k) := by
  have hnodup : ((Multiset.range (2^k)).map (reverseLowBits k)).Nodup := by
    refine Multiset.Nodup.map_on ?_ (Multiset.nodup_range _)
    intro x hx y hy hxy
    have hx2 : x < 2^k := Multiset.mem_range.mp hx
    have hy2 : y < 2^k := Multiset.mem_range.mp hy
    calc x = reverseLowBits k (reverseLowBits k x) := (reverseLowBits_involutive k x hx2).symm
    _ = reverseLowBits k (reverseLowBits k y) := by rw [hxy]
    _ = y := reverseLowBits_involutive k y hy2
  have hsub : ((Multiset.range (2^k)).map (reverseLowBits k)) ⊆ Multiset.range (2^k) := by
    intro x hx
    obtain ⟨i, hi, rfl⟩ := Multiset.mem_map.mp hx
    exact Multiset.mem_range.mpr (reverseLowBits_lt k i)
  exact Multiset.eq_of_le_of_card_le ((Multiset.le_iff_subset hnodup).mpr hsub) (by simp)

noncomputable section

/-- The multiset of second Hammersley coordinates over indices `[0, N)`. -/
def u1Values (N : ℕ) : Multiset ℝ := (Multiset.range N).map (fun i => (hammersley i N).2)

/-- The regular grid `{0, 1/N, ..., (N-1)/N}` as a multiset. -/
def gridValues (N : ℕ) : Multiset ℝ := (Multiset.range N).map (fun j : ℕ => (j : ℝ) / (N : ℝ))

end

/-- Counterexample to claim C5 as stated: for the power of two `N = 2^33` the
second Hammersley coordinates (all of denominator `2^32`) cannot cover the
grid of spacing `1/2^33`. -/
theorem u1Values_eq_imp (N : ℕ) (h : u1Values N = gridValues N) (j : ℕ) (hj : j < N) :
    ∃ i, i < N ∧ (hammersley i N).2 = (j : ℝ) / (N : ℝ) := by
  have hmem : ((j : ℝ) / (N : ℝ)) ∈ gridValues N :=
    Multiset.mem_map.mpr ⟨j, Multiset.mem_range.mpr hj, rfl⟩
  rw [← h] at hmem
  obtain ⟨i, hi, heq⟩ := Multiset.mem_map.mp hmem
  exact ⟨i, Multiset.mem_range.mp hi, heq⟩

/-- Counterexample to claim C5 as stated: for the power of two `N = 2^33` the
second Hammersley coordinates (all of denominator `2^32`) cannot cover the
grid of spacing `1/2^33`. -/
theorem C5_counterexample_two_pow_33 : u1Values (2^33) ≠ gridValues (2^33) := by
  intro h
  obtain ⟨i, hi, heq⟩ := u1Values_eq_imp (2^33) h 1 (by norm_num)
  unfold hammersley tof at heq
  dsimp only at heq
  push_cast at heq
  rw [show (0.5:ℝ)/2147483648 = 1/4294967296 by norm_num, mul_one_div] at heq
  rw [div_eq_div_iff (by norm_num) (by norm_num)] at heq
  norm_num at heq
  have hn : hammersleyBits i * 8589934592 = 4294967296 := by exact_mod_cast heq
  omega

/-- Claim C5 (amended to powers of two that fit in 32 bits): for `N = 2^k`
with `k ≤ 32`, the multiset of second Hammersley coordinates over `[0, N)` is
exactly the grid `{0, 1/N, ..., (N-1)/N}`. -/
theorem C5_bit_reversal_permutes_grid (k : ℕ) (hk : k ≤ 32) :
    u1Values (2^k) = gridValues (2^k) := by
  unfold u1Values gridValues
  have hcast : (((2:ℕ)^k : ℕ) : ℝ) = (2:ℝ)^k := by push_cast; rfl
  have hpow : (2:ℝ)^(32-k) * (2:ℝ)^k = 4294967296 := by
    rw [← pow_add, Nat.sub_add_cancel hk]; norm_num
  have hstep : ∀ i ∈ Multiset.range (2^k),
      (hammersley i (2^k)).2 = ((reverseLowBits k i : ℝ)) / (2:ℝ)^k := by
    intro i hi
    have hik : i < 2^k := Multiset.mem_range.mp hi
    have hi32 : i < 2^32 := lt_of_lt_of_le hik (Nat.pow_le_pow_right (by norm_num) hk)
    unfold hammersley tof
    dsimp only
    rw [hammersleyBits_eq_rev32 i hi32, rev32_eq_shifted k i hk hik]
    push_cast
    rw [show (0.5:ℝ)/2147483648 = 1/4294967296 by norm_num, mul_one_div]
    rw [div_eq_div_iff (by norm_num) (by positivity)]
    calc (2:ℝ)^(32-k) * (reverseLowBits k i : ℝ) * 2^k
        = (reverseLowBits k i : ℝ) * ((2:ℝ)^(32-k) * (2:ℝ)^k) := by ring
    _ = (reverseLowBits k i : ℝ) * 4294967296 := by rw [hpow]
  simp only [hcast]
  calc (Multiset.range (2^k)).map (fun i => (hammersley i (2^k)).2)
      = (Multiset.range (2^k)).map (fun i => ((reverseLowBits k i : ℝ)) / (2:ℝ)^k) :=
        Multiset.map_congr rfl hstep
  _ = ((Multiset.range (2^k)).map (reverseLowBits k)).map (fun m : ℕ => (m:ℝ)/(2:ℝ)^k) := by
        rw [Multiset.map_map]; rfl
  _ = (Multiset.range (2^k)).map (fun m : ℕ => (m:ℝ)/(2:ℝ)^k) := by
        rw [map_reverseLowBits_range]

/-- Witness for the amended C5 at `k = 4`. -/
theorem C5_bit_reversal_permutes_grid_witness :
    4 ≤ 32 ∧ u1Values (2^4) = gridValues (2^4) :=
  ⟨by norm_num, C5_bit_reversal_permutes_grid 4 (by norm_num)⟩

/-! ## Serialization: `write_dfg` and the ppm framing of `main`

The IEEE half-float byte encoding used by the raw branch is floating-point
serialization outside the numerical core; it is abstracted as the parameter
`half16`. -/

noncomputable section

/-- Byte value of one color channel in the ppm branch of `write_dfg`:
`int(saturate(c) * 255)` (truncation of a nonnegative value is the floor). -/
def byteOfChannel (c : ℝ) : ℕ := (⌊saturate c * 255⌋).toNat

/-- `write_dfg` from the source, returning the bytes written to the file
handle; the leading `assert len(dfg) == 2` is modelled as the error case. -/
def write_dfg (half16 : ℝ → List ℕ) (dfg : List ℝ) (file_format : String) :
    Except String (List ℕ) :=
  if dfg.length = 2 then
    if file_format = "raw" then Except.ok (dfg.flatMap half16)
    else if file_format = "ppm" then Except.ok (dfg.map byteOfChannel ++ [0])
    else Except.ok []
  else Except.error ("assert failed: dfg does not have two channels")

/-- The textual ppm header `P6\n<R> <R>\n255\n` written by `main`, as bytes. -/
def ppmHeader (R : ℕ) : List ℕ :=
  ("P6\n" ++ toString R ++ " " ++ toString R ++ "\n255\n").data.map Char.toNat

/-- The texel value list `[dfg1, dfg2]` computed by `main` for grid cell
`(t, s)` at resolution `R` with the given sample count. -/
def mainTexel (samples R t s : ℕ) : List ℝ :=
  let nov := ((s : ℝ) + 0.5) / (R : ℝ)
  let perceptual_roughness := ((t : ℝ) + 0.5) / (R : ℝ)
  let a := perceptual_roughness ^ (2 : ℕ)
  [(calculate_dfg nov a samples).1, (calculate_dfg nov a samples).2]

/-- All texels of `main` in row-major loop order. -/
def mainTexels (R samples : ℕ) : List (List ℝ) :=
  (List.range R).flatMap (fun t : ℕ => (List.range R).map (fun s : ℕ => mainTexel samples R t s))

/-- The byte stream `main` writes: the ppm header when the format is `ppm`,
then the bytes of `write_dfg` for every texel in order. -/
def mainOutput (half16 : ℝ → List ℕ) (R samples : ℕ) (file_format : String) :
    Except String (List ℕ) :=
  (mainTexels R samples).foldlM
    (fun acc dfg => (write_dfg half16 dfg file_format).map (fun bs => acc ++ bs))
    (if file_format = "ppm" then ppmHeader R else [])

end

theorem foldlM_write_ok (half16 : ℝ → List ℕ) (fmt : String) :
    ∀ L : List (List ℝ), (∀ d ∈ L, ∃ bs, write_dfg half16 d fmt = Except.ok bs) →
    ∀ init : List ℕ, ∃ body,
      L.foldlM (fun acc dfg => (write_dfg half16 dfg fmt).map (fun bs => acc ++ bs)) init
        = Except.ok (init ++ body) := by
  intro L
  induction L with
  | nil => exact fun hL init => ⟨[], by rw [List.foldlM_nil, List.append_nil]; rfl⟩
  | cons d L ih =>
    intro hL init
    obtain ⟨bs, hbs⟩ := hL d (List.mem_cons_self d L)
    obtain ⟨body, hbody⟩ := ih (fun x hx => hL x (List.mem_cons_of_mem d hx)) (init ++ bs)
    refine ⟨bs ++ body, ?_⟩
    rw [List.foldlM_cons, hbs]
    simpa [Except.map, List.append_assoc] using hbody

/-- Claim C7: in ppm format, `write_dfg` emits exactly the three bytes
`int(saturate(dfg1)*255)`, `int(saturate(dfg2)*255)`, `0`, and the output of
`main` begins with the textual header `P6\n<R> <R>\n255\n`. -/
theorem C7_ppm_three_bytes_and_header :
    (∀ (half16 : ℝ → List ℕ) (d1 d2 : ℝ),
      write_dfg half16 [d1, d2] "ppm"
        = Except.ok [byteOfChannel d1, byteOfChannel d2, 0]) ∧
    (∀ (half16 : ℝ → List ℕ) (R samples : ℕ),
      ∃ body, mainOutput half16 R samples "ppm" = Except.ok (ppmHeader R ++ body)) := by
  constructor
  · intro half16 d1 d2
    simp [write_dfg]
  · intro half16 R samples
    have hok : ∀ d ∈ mainTexels R samples, ∃ bs, write_dfg half16 d "ppm" = Except.ok bs := by
      intro d hd
      obtain ⟨t, ht, hmem⟩ := List.mem_flatMap.mp hd
      obtain ⟨s, hs, rfl⟩ := List.mem_map.mp hmem
      refine ⟨(mainTexel samples R t s).map byteOfChannel ++ [0], ?_⟩
      simp [write_dfg, mainTexel]
    have hmain := foldlM_write_ok half16 "ppm" (mainTexels R samples) hok (ppmHeader R)
    simpa [mainOutput] using hmain

/-- Claim C10: for a two-channel texel and any format other than `raw` and
`ppm`, `write_dfg` writes no bytes and raises no error. -/
theorem C10_unknown_format_silent (half16 : ℝ → List ℕ) (dfg : List ℝ) (fmt : String)
    (hlen : dfg.length = 2) (hraw : fmt ≠ "raw") (hppm : fmt ≠ "ppm") :
    write_dfg half16 dfg fmt = Except.ok [] := by
  simp [write_dfg, hlen, hraw, hppm]

/-- Witness for C10 with format `bmp` and texel `[0, 0]`. -/
theorem C10_unknown_format_silent_witness :
    ([(0:ℝ), 0].length = 2) ∧ ("bmp" ≠ "raw") ∧ ("bmp" ≠ "ppm") ∧
    write_dfg (fun c => []) [(0:ℝ), 0] "bmp" = Except.ok [] :=
  ⟨rfl, by decide, by decide,
    C10_unknown_format_silent (fun c => []) [(0:ℝ), 0] "bmp" rfl (by decide) (by decide)⟩
